import Mathlib

/-!
Verification of the firmware-update staging pipeline of `app.c`
(pico-flashloader demo application).

The development shallowly embeds the C source into Lean:

* machine integers (`uint8_t`, `uint16_t`, `uint32_t`) become `Nat` with
  explicit `% 2^w` where the C semantics truncates;
* C strings become `List Nat` of byte values (the list holds the characters
  before the terminating NUL; the end of the list plays the role of NUL);
* the uninitialised stack array `data[256+5]` of `processRecord` is modelled
  by an explicit function `junk : Nat → Nat` giving the byte that an
  out-of-decoded-range read observes;
* the staging buffer (`flashbuf.header.data`) becomes a total function
  `Nat → Nat`; indices `≥ 65536` model memory beyond the staging buffer,
  so an out-of-bounds `memcpy` is visible as a write at such an index;
* `flash_range_program` of one contiguous range is modelled as the list of
  programmed bytes in ascending address order.

Definitions are translated from `src/app.c`; definitions whose names end in
`_spec`, `_claimed` or `Wrapped` instead follow the natural-language
specification's words, for comparison against the source translation.
-/

/-! ### Checksum engine (`crc32`, app.c lines 74-89) -/

/-- One round of the inner `for` loop of `crc32`:
`if (crc & (1L << 31)) crc = (crc << 1) ^ 0x04C11DB7; else crc = (crc << 1);`
on a `uint32_t`. -/
def crcRound (crc : Nat) : Nat :=
  if crc &&& (1 <<< 31) ≠ 0 then
    (crc * 2 % 2 ^ 32) ^^^ 0x04C11DB7
  else
    crc * 2 % 2 ^ 32

/-- Runs `n` iterations of `crcRound` (the inner loop runs 8 times). -/
def crcRounds : Nat → Nat → Nat
  | 0, crc => crc
  | n + 1, crc => crcRounds n (crcRound crc)

/-- Source `crc32(data, len, crc)` from app.c: the byte list stands for the
`len` bytes at `data`.  `crc ^= (*data++ << 24)` then 8 rounds. -/
def crc32 : List Nat → Nat → Nat
  | [], crc => crc
  | b :: rest, crc => crc32 rest (crcRounds 8 (crc ^^^ (b <<< 24)))

/-! ### Record parser (`hex2nibble`, `parseHex`, `processRecord`) -/

/-- Source `hex2nibble(c, value)` (app.c lines 96-118): shifts the existing value
one nibble and merges the decoded character in.  Note the source tests
`c >= 'a' && c <= 'z'` after `c |= 32`, so every ASCII letter is accepted,
not only `a`-`f`.  Returns the updated `*value` on success. -/
def hex2nibble (c : Nat) (v : Nat) : Option Nat :=
  if 48 ≤ c ∧ c ≤ 57 then
    some ((v * 16 % 256) ||| (c - 48))
  else
    if 97 ≤ c ||| 32 ∧ c ||| 32 ≤ 122 then
      some ((v * 16 % 256) ||| ((c ||| 32) - 97 + 10))
    else
      none

/-- Source `parseHex(str, value)` (app.c lines 123-131): `*value = 0`, then two
`hex2nibble` calls, short-circuiting like `&&`. -/
def parseHex (c1 c2 : Nat) : Option Nat :=
  match hex2nibble c1 0 with
  | none => none
  | some v => hex2nibble c2 v

/-- Parsed Intel HEX record (`tRecord`, app.c lines 37-43).  `data` models
the first `count` bytes of the 256-byte `data` array — exactly the bytes
`processRecord`'s final `memcpy` fills in. -/
structure tRecord where
  count : Nat
  addr : Nat
  type : Nat
  data : List Nat
  deriving DecidableEq, Repr

/-- The scan `while(*line && (*line != ':')) line++; if(*line++ == ':')` of
`processRecord`: returns the text after the first `':'`, or `none` when a
NUL byte or the end of the line comes first. -/
def dropToColon : List Nat → Option (List Nat)
  | [] => none
  | c :: rest =>
    if c = 58 then some rest
    else if c = 0 then none
    else dropToColon rest

/-- The decode loop of `processRecord` (app.c lines 149-154):
`while(parseHex(line, &value) && (offset < sizeof(data)))` with
`sizeof(data) = 261`.  Returns the bytes stored into `data[]`, starting at
slot `off`. -/
def decodeBytes : List Nat → Nat → List Nat
  | c1 :: c2 :: rest, off =>
    (match parseHex c1 c2 with
     | some v => if off < 261 then v :: decodeBytes rest (off + 1) else []
     | none => [])
  | _, _ => []

/-- Read slot `i` of the `data[]` array after the decode loop stored `ds`:
decoded slots hold the decoded byte, the rest hold whatever byte the
uninitialised stack contained (`junk i`, as a `uint8_t`). -/
def readData (ds : List Nat) (junk : Nat → Nat) (i : Nat) : Nat :=
  if i < ds.length then ds.getD i 0 else junk i % 256

/-- The record assembly on acceptance (app.c lines 161-164):
`count = data[0]`, `addr = data[2] | (data[1] << 8)` (a `uint16_t`),
`type = data[3]`, `memcpy(record->data, &data[4], data[0])`. -/
def extractRecord (ds : List Nat) (junk : Nat → Nat) : tRecord :=
  { count := readData ds junk 0
    addr := (readData ds junk 2 ||| readData ds junk 1 * 256) % 65536
    type := readData ds junk 3
    data := (List.range (readData ds junk 0)).map fun i => readData ds junk (4 + i) }

/-- Source `processRecord(line, record)` (app.c lines 136-169).  Accepts iff at
least one byte was decoded and the running `uint8_t` checksum is zero. -/
def processRecord (line : List Nat) (junk : Nat → Nat) : Option tRecord :=
  match dropToColon line with
  | none => none
  | some rest =>
    if 0 < (decodeBytes rest 0).length ∧ (decodeBytes rest 0).sum % 256 = 0 then
      some (extractRecord (decodeBytes rest 0) junk)
    else none

/-! ### Flash header and stager (`flashImage`, app.c lines 174-207) -/

/-- Modelled from the spec: `FLASH_MAGIC1` is the first of the two fixed
magic constants of the staged-image header.  It is defined in
`flashloader.h`, which is not under `src/`; the spec fixes no numeric
value, so an arbitrary concrete 32-bit constant represents it. -/
def FLASH_MAGIC1 : Nat := 0x96F3B83D

/-- Modelled from the spec: `FLASH_MAGIC2`, the second fixed magic
constant of the staged-image header (`flashloader.h`, not under `src/`). -/
def FLASH_MAGIC2 : Nat := 0x20A718EB

/-- Modelled from the spec: the staged-image header (`tFlashHeader`,
`flashloader.h`, not under `src/`): two magic words, a length word and a
CRC word, immediately followed by the image data (spec §6). -/
structure tFlashHeader where
  magic1 : Nat
  magic2 : Nat
  length : Nat
  crc32 : Nat
  deriving DecidableEq, Repr

/-- The header population of `flashImage` (app.c lines 183-186), reading
the image bytes from the staging buffer `buf`.  `length` is a `uint32_t`
parameter. -/
def flashImage (buf : Nat → Nat) (length : Nat) : tFlashHeader :=
  { magic1 := FLASH_MAGIC1
    magic2 := FLASH_MAGIC2
    length := length % 2 ^ 32
    crc32 := crc32 ((List.range length).map buf) 0xFFFFFFFF }

/-- Little-endian byte serialization of one 32-bit word (the RP2040 is
little-endian). -/
def word4 (w : Nat) : List Nat :=
  [w % 256, w / 2 ^ 8 % 256, w / 2 ^ 16 % 256, w / 2 ^ 24 % 256]

/-- The in-memory bytes of a `tFlashHeader` (16 bytes, magic words
first). -/
def headerBytes (h : tFlashHeader) : List Nat :=
  word4 h.magic1 ++ word4 h.magic2 ++ word4 h.length ++ word4 h.crc32

/-- The byte sequence programmed by the single
`flash_range_program(FLASH_IMAGE_OFFSET, (uint8_t*)header, totalLength)`
call of `flashImage` (app.c line 193), in ascending address order:
the header bytes at the base of the staged region, then the image bytes.
Position `p` in this list is programmed before position `q` iff `p < q`. -/
def programSequence (h : tFlashHeader) (image : List Nat) : List Nat :=
  headerBytes h ++ image

/-! ### Image assembler (`readIntelHex`, app.c lines 235-278) -/

/-- Assembler state: the cursor `offset` and the staging buffer
`flashbuf.header.data`, modelled as a total byte function so that writes
past index 65535 (beyond the buffer) stay observable. -/
structure AsmState where
  offset : Nat
  buf : Nat → Nat

/-- Models `memcpy(&flashbuf.header.data[dst], bs, bs.length)`: bytes are placed
at consecutive raw indices starting at `dst`, with no wrapping. -/
def writeBytes (buf : Nat → Nat) (dst : Nat) (bs : List Nat) : Nat → Nat :=
  fun i => if dst ≤ i ∧ i < dst + bs.length then bs.getD (i - dst) 0 else buf i

/-- The staged output produced when an END-OF-FILE record reaches
`flashImage`: the populated header, the `length` argument passed
(the cursor), and the image bytes `flashbuf.header.data[0..length)`. -/
structure Staged where
  header : tFlashHeader
  length : Nat
  image : List Nat
  deriving Repr

/-- One accepted record through the `switch(rec.type)` of `readIntelHex`
(app.c lines 247-274).  `Sum.inr` is the END-OF-FILE case: `flashImage`
runs and never returns. -/
def applyRecord (s : AsmState) (r : tRecord) : AsmState ⊕ Staged :=
  if r.type = 0 then
    Sum.inl { offset := (s.offset + r.count) % 65536
              buf := writeBytes s.buf s.offset (r.data.take r.count) }
  else if r.type = 1 then
    Sum.inr { header := flashImage s.buf s.offset
              length := s.offset
              image := (List.range s.offset).map s.buf }
  else if r.type = 4 then
    Sum.inl { offset := 0, buf := s.buf }
  else
    Sum.inl s

/-- One iteration of the `while(true)` loop of `readIntelHex` on an input
line: a line that `processRecord` rejects leaves the state untouched. -/
def stepLine (s : AsmState) (line : List Nat) (junk : Nat → Nat) : AsmState ⊕ Staged :=
  match processRecord line junk with
  | none => Sum.inl s
  | some r => applyRecord s r

/-- Run the assembler over a list of already-parsed records, stopping at
the first END-OF-FILE record (the machine reboots there). -/
def runRecords : AsmState → List tRecord → AsmState
  | s, [] => s
  | s, r :: rest =>
    match applyRecord s r with
    | Sum.inl s' => runRecords s' rest
    | Sum.inr _ => s

/-- Initial assembler state: `offset = 0`, and the staging buffer is
zeroed (`flashbuf` has static storage duration). -/
def initState : AsmState :=
  { offset := 0, buf := fun _ => 0 }

/-! ### Specification-side definitions

These follow the wording of the natural-language specification, to be
compared with the source translation above. -/

/-- Spec §4.1, one round: if the top bit of the 32-bit value is set,
shift left and XOR with `0x04C11DB7`, else shift left (the shift of a
32-bit register discards the top bit). -/
def specRound (c : Nat) : Nat :=
  if Nat.testBit c 31 then (c % 2 ^ 31 * 2) ^^^ 0x04C11DB7
  else c % 2 ^ 31 * 2

/-- Spec §4.1 `crc32`: process one byte at a time; XOR the byte into the
high-order 8 bits of the running value, then 8 rounds of `specRound`. -/
def crc32_spec (data : List Nat) (seed : Nat) : Nat :=
  data.foldl (fun crc b => specRound^[8] (crc ^^^ b * 2 ^ 24)) seed

/-- Lower-case ASCII hex character of a nibble value. -/
def nibbleChar (n : Nat) : Nat :=
  if n < 10 then 48 + n else 87 + n

/-- Two-character ASCII-hex encoding of one byte. -/
def encodeByte (b : Nat) : List Nat :=
  [nibbleChar (b / 16), nibbleChar (b % 16)]

/-- Hex pairs for a byte list. -/
def encodeBytes : List Nat → List Nat
  | [] => []
  | b :: rest => nibbleChar (b / 16) :: nibbleChar (b % 16) :: encodeBytes rest

/-- The checksum byte making the total decoded sum `0 (mod 256)`
(two's-complement of the sum of the preceding bytes, spec §6). -/
def checksumByte (bs : List Nat) : Nat :=
  (256 - bs.sum % 256) % 256

/-- Spec §6 line format for a `(count, address, type, payload)` tuple:
`':'`, then hex pairs for count, big-endian address, type, payload and
the checksum byte. -/
def encodeRecord (count addr ty : Nat) (payload : List Nat) : List Nat :=
  let body := count :: addr / 256 :: addr % 256 :: ty :: payload
  58 :: encodeBytes (body ++ [checksumByte body])

/-- Spec §3/§7 wrapped write semantics claimed for an over-length
transfer: byte `k` of the payload is placed at staging-buffer index
`(dst + k) % 65536`; nothing at or beyond index 65536 is ever written. -/
def writeBytesWrapped (buf : Nat → Nat) (dst : Nat) (bs : List Nat) : Nat → Nat :=
  fun i =>
    if i < 65536 then
      let k := (i + 65536 - dst % 65536) % 65536
      if k < bs.length then bs.getD k 0 else buf i
    else buf i

/-- The assembler transition as the spec's claim C1 reads it: identical
to `applyRecord` except that a DATA record's bytes wrap modulo the
staging-buffer capacity. -/
def applyRecordClaimed (s : AsmState) (r : tRecord) : AsmState ⊕ Staged :=
  if r.type = 0 then
    Sum.inl { offset := (s.offset + r.count) % 65536
              buf := writeBytesWrapped s.buf s.offset (r.data.take r.count) }
  else if r.type = 1 then
    Sum.inr { header := flashImage s.buf s.offset
              length := s.offset
              image := (List.range s.offset).map s.buf }
  else if r.type = 4 then
    Sum.inl { offset := 0, buf := s.buf }
  else
    Sum.inl s

/-- Run of the claimed (wrapping) assembler semantics. -/
def runRecordsClaimed : AsmState → List tRecord → AsmState
  | s, [] => s
  | s, r :: rest =>
    match applyRecordClaimed s r with
    | Sum.inl s' => runRecordsClaimed s' rest
    | Sum.inr _ => s

/-- Cursor evolution of one non-EOF assembler step (only the offset). -/
def nextOffset (off : Nat) (r : tRecord) : Nat :=
  if r.type = 0 then (off + r.count) % 65536
  else if r.type = 4 then 0
  else off

/-- Holds (is `true`) iff along the run no single DATA record straddles the
staging-buffer capacity: at each DATA step the write stays within
`cursor + count ≤ 65536` (records after an EOF record are never
processed and are not constrained). -/
def noStraddleB : Nat → List tRecord → Bool
  | _, [] => true
  | off, r :: rest =>
    (!(r.type == 0) || decide (off + (r.data.take r.count).length ≤ 65536)) &&
      (r.type == 1 || noStraddleB (nextOffset off r) rest)

/-- Claim C2's ordering property of the programmed byte sequence: every
position holding an image byte (positions `16 ≤ p < 16 + len` of
`programSequence`) is programmed strictly before every position holding
a magic-bearing header byte (positions `q < 8`). -/
def imageBeforeMagic (len : Nat) : Prop :=
  ∀ p < 16 + len, ∀ q < 8, 16 ≤ p → p < q

/-! ### Helper lemmas -/

/-- Recombining `data[2] | (data[1] << 8)` on bytes is big-endian addition. -/
theorem lor_mul256 (a b : Nat) (ha : a < 256) :
    a ||| b * 256 = b * 256 + a := by
  have h := Nat.mul_add_lt_is_or (i := 8) (b := a) (by omega) b
  have h8 : (2 : Nat) ^ 8 * b = b * 256 := by ring
  rw [h8, Nat.lor_comm] at h
  exact h.symm

/-- Merging a nibble into a nibble-shifted byte is addition. -/
theorem lor_nibble (v d : Nat) (hd : d < 16) :
    (v * 16 % 256) ||| d = v * 16 % 256 + d := by
  have e : v * 16 % 256 = 2 ^ 4 * (v * 16 % 256 / 16) := by omega
  have h := Nat.mul_add_lt_is_or (i := 4) (b := d) (by omega) (v * 16 % 256 / 16)
  rw [e]
  exact h.symm

set_option maxRecDepth 4096

/-- Each encoded hex pair decodes back to its byte. -/
theorem hexPair_decode : ∀ b < 256, parseHex (nibbleChar (b / 16)) (nibbleChar (b % 16)) = some b := by
  decide

/-- Leading noise (no `':'`, no NUL) is skipped up to the marker. -/
theorem dropToColon_append (noise rest : List Nat)
    (hn : ∀ c ∈ noise, c ≠ 58 ∧ c ≠ 0) :
    dropToColon (noise ++ 58 :: rest) = some rest := by
  induction noise with
  | nil => simp [dropToColon]
  | cons c cs ih =>
    have hc := hn c (by simp)
    simp only [List.cons_append, dropToColon, if_neg hc.1, if_neg hc.2]
    exact ih fun d hd => hn d (by simp [hd])

/-- Decoding an empty line yields no bytes. -/
theorem decodeBytes_nil (off : Nat) : decodeBytes [] off = [] := rfl

/-- The decode loop recovers an encoded byte list and continues on the
remaining characters (as long as the 261-slot bound is not hit). -/
theorem decodeBytes_encodeBytes (bs : List Nat) (tail : List Nat) (off : Nat)
    (hb : ∀ b ∈ bs, b < 256) (hlen : off + bs.length ≤ 261) :
    decodeBytes (encodeBytes bs ++ tail) off = bs ++ decodeBytes tail (off + bs.length) := by
  induction bs generalizing off with
  | nil => simp [encodeBytes]
  | cons b rest ih =>
    have hb0 : b < 256 := hb b (by simp)
    have hdec := hexPair_decode b hb0
    have hoff : off < 261 := by simp at hlen; omega
    simp only [encodeBytes, List.cons_append, decodeBytes, hdec, if_pos hoff, List.append_eq]
    rw [ih (off + 1) (fun x hx => hb x (List.mem_cons_of_mem _ hx))
        (by simp at hlen ⊢; omega)]
    have harith : off + 1 + rest.length = off + (rest.length + 1) := by omega
    simp [harith]

/-- Reading every index of a list back in order reproduces the list. -/
theorem range_map_getD (l : List Nat) :
    (List.range l.length).map (fun i => l.getD i 0) = l := by
  apply List.ext_getElem
  · simp
  · intro i h1 h2
    simp [List.getD_eq_getElem?_getD, List.getElem?_eq_getElem, h2]

/-- Field extraction on a well-formed decoded record body: count, then the
big-endian address, the type, `count` payload bytes and a trailing
checksum byte. -/
theorem extractRecord_body (count addr ty ck : Nat) (payload : List Nat)
    (ha : addr < 65536) (hp : payload.length = count) (junk : Nat → Nat) :
    extractRecord (count :: addr / 256 :: addr % 256 :: ty :: (payload ++ [ck])) junk =
      { count := count, addr := addr, type := ty, data := payload } := by
  subst hp
  have h0 : readData (payload.length :: addr / 256 :: addr % 256 :: ty :: (payload ++ [ck])) junk 0
      = payload.length := by simp [readData]
  have h1 : readData (payload.length :: addr / 256 :: addr % 256 :: ty :: (payload ++ [ck])) junk 1
      = addr / 256 := by simp [readData]
  have h2 : readData (payload.length :: addr / 256 :: addr % 256 :: ty :: (payload ++ [ck])) junk 2
      = addr % 256 := by simp [readData]
  have h3 : readData (payload.length :: addr / 256 :: addr % 256 :: ty :: (payload ++ [ck])) junk 3
      = ty := by simp [readData]
  have hdata : (List.range payload.length).map
      (fun i => readData (payload.length :: addr / 256 :: addr % 256 :: ty :: (payload ++ [ck]))
        junk (4 + i))
      = payload := by
    refine (List.map_congr_left ?_).trans (range_map_getD payload)
    intro i hi
    have hi' : i < payload.length := List.mem_range.mp hi
    have hlt : 4 + i <
        (payload.length :: addr / 256 :: addr % 256 :: ty :: (payload ++ [ck])).length := by
      simp; omega
    rw [readData, if_pos hlt]
    have hidx : 4 + i = (((i + 1) + 1) + 1) + 1 := by omega
    rw [hidx]
    simp only [List.getD_cons_succ]
    rw [List.getD_eq_getElem?_getD, List.getElem?_append_left hi',
      ← List.getD_eq_getElem?_getD]
  unfold extractRecord
  rw [h0, h1, h2, h3, hdata]
  have haddr : (addr % 256 ||| addr / 256 * 256) % 65536 = addr := by
    rw [lor_mul256 (addr % 256) (addr / 256) (by omega)]
    omega
  rw [haddr]

/-- Running `processRecord` on a line made of ignorable noise, the `':'` marker and
an encoded byte list: it accepts iff the byte sum vanishes mod 256, and
then extracts the fields from the decoded bytes. -/
theorem processRecord_encode (noise bs : List Nat) (junk : Nat → Nat)
    (hn : ∀ c ∈ noise, c ≠ 58 ∧ c ≠ 0) (hb : ∀ b ∈ bs, b < 256)
    (hlen : bs.length ≤ 261) (hne : bs ≠ []) :
    processRecord (noise ++ 58 :: encodeBytes bs) junk =
      if bs.sum % 256 = 0 then some (extractRecord bs junk) else none := by
  have h1 : dropToColon (noise ++ 58 :: encodeBytes bs) = some (encodeBytes bs) :=
    dropToColon_append noise (encodeBytes bs) hn
  have hd : decodeBytes (encodeBytes bs) 0 = bs := by
    have h := decodeBytes_encodeBytes bs [] 0 hb (by omega)
    simpa [decodeBytes_nil] using h
  simp only [processRecord, h1, hd]
  by_cases hsum : bs.sum % 256 = 0
  · rw [if_pos hsum, if_pos ⟨List.length_pos.mpr hne, hsum⟩]
  · rw [if_neg hsum, if_neg (by tauto)]

/-- The source's bit test `crc & (1L << 31)` agrees with the spec's
"if the top bit is set" round. -/
theorem crcRound_eq_specRound (c : Nat) : crcRound c = specRound c := by
  have h1 : (1 <<< 31 : Nat) = 2 ^ 31 := by
    rw [Nat.shiftLeft_eq, Nat.one_mul]
  have hmod : c * 2 % 2 ^ 32 = c % 2 ^ 31 * 2 := by omega
  unfold crcRound specRound
  rw [h1, Nat.and_two_pow, hmod]
  cases h : c.testBit 31 <;> simp

/-- The inner loop is an 8-fold iterate of the spec round. -/
theorem crcRounds_eq_iterate (n c : Nat) : crcRounds n c = specRound^[n] c := by
  induction n generalizing c with
  | zero => rfl
  | succ k ih =>
    rw [crcRounds, crcRound_eq_specRound, Function.iterate_succ_apply, ih]

/-- The source `crc32` computes exactly the spec's reference definition. -/
theorem crc32_eq_spec (data : List Nat) (seed : Nat) :
    crc32 data seed = crc32_spec data seed := by
  induction data generalizing seed with
  | nil => rfl
  | cons b rest ih =>
    rw [crc32, ih]
    unfold crc32_spec
    rw [List.foldl_cons]
    congr 1
    rw [crcRounds_eq_iterate, Nat.shiftLeft_eq]

/-! ### Claim theorems -/

/-- Claim C6: for every byte sequence and seed, `crc32` equals the
reference bit-by-bit definition (XOR the byte into the high 8 bits, then
8 rounds of shift-left with conditional XOR of `0x04C11DB7`, arithmetic
mod `2^32`, no reflection, no final XOR), and it matches the
independently computed CRC-32/MPEG-2 test vector for the ASCII string
of the digits 1-9. -/
theorem C6_crc32_reference_definition :
    (∀ data seed, crc32 data seed = crc32_spec data seed) ∧
    crc32 [49, 50, 51, 52, 53, 54, 55, 56, 57] 0xFFFFFFFF = 0x0376E6E7 :=
  ⟨crc32_eq_spec, by decide⟩

/-- When a write fits below the capacity, the source's raw `memcpy` and
the spec's wrapped write agree pointwise. -/
theorem writeBytes_eq_wrapped (buf1 buf2 : Nat → Nat) (dst : Nat) (bs : List Nat)
    (hb : ∀ i, buf1 i = buf2 i) (hfit : dst + bs.length ≤ 65536) (i : Nat) :
    writeBytes buf1 dst bs i = writeBytesWrapped buf2 dst bs i := by
  unfold writeBytes writeBytesWrapped
  by_cases hi : i < 65536
  · rw [if_pos hi]
    by_cases hin : dst ≤ i ∧ i < dst + bs.length
    · have hdm : dst % 65536 = dst := Nat.mod_eq_of_lt (by omega)
      have hk : (i + 65536 - dst % 65536) % 65536 = i - dst := by
        rw [hdm]; omega
      rw [if_pos hin, hk, if_pos (by omega)]
    · have hk : ¬ ((i + 65536 - dst % 65536) % 65536 < bs.length) := by omega
      rw [if_neg hin, if_neg hk]
      exact hb i
  · rw [if_neg (by omega : ¬ (dst ≤ i ∧ i < dst + bs.length)), if_neg hi]
    exact hb i

/-- Simulation: under `noStraddleB`, the source assembler run and the
spec's wrapped-write run stay in lockstep (same cursor, pointwise-equal
buffers). -/
theorem runRecords_sim_claimed (T : List tRecord) :
    ∀ s t : AsmState, s.offset = t.offset → (∀ i, s.buf i = t.buf i) →
      noStraddleB s.offset T = true →
      (runRecords s T).offset = (runRecordsClaimed t T).offset ∧
      (∀ i, (runRecords s T).buf i = (runRecordsClaimed t T).buf i) := by
  induction T with
  | nil => exact fun s t ho hb _ => ⟨ho, hb⟩
  | cons r rest ih =>
    intro s t ho hb hS
    rw [noStraddleB] at hS
    simp only [Bool.and_eq_true, Bool.or_eq_true, Bool.not_eq_eq_eq_not, Bool.not_true,
      beq_iff_eq, beq_eq_false_iff_ne, decide_eq_true_eq] at hS
    by_cases h0 : r.type = 0
    · have hfit : s.offset + (r.data.take r.count).length ≤ 65536 := by
        rcases hS.1 with h | h
        · exact absurd h0 h
        · exact h
      have hrest : noStraddleB (nextOffset s.offset r) rest = true := by
        rcases hS.2 with h | h
        · exact absurd h (by omega)
        · exact h
      rw [runRecords, runRecordsClaimed, applyRecord, applyRecordClaimed, if_pos h0, if_pos h0]
      have hnext : nextOffset s.offset r = (s.offset + r.count) % 65536 := by
        rw [nextOffset, if_pos h0]
      refine ih _ _ (by simp [ho]) ?_ (by rw [hnext] at hrest; exact hrest)
      intro i
      exact writeBytes_eq_wrapped s.buf t.buf s.offset (r.data.take r.count) hb hfit i
        |>.trans (by rw [ho])
    · by_cases h1 : r.type = 1
      · rw [runRecords, runRecordsClaimed, applyRecord, applyRecordClaimed,
          if_neg h0, if_neg h0, if_pos h1, if_pos h1]
        exact ⟨ho, hb⟩
      · have hrest : noStraddleB (nextOffset s.offset r) rest = true := by
          rcases hS.2 with h | h
          · exact absurd h h1
          · exact h
        by_cases h4 : r.type = 4
        · rw [runRecords, runRecordsClaimed, applyRecord, applyRecordClaimed,
            if_neg h0, if_neg h0, if_neg h1, if_neg h1, if_pos h4, if_pos h4]
          refine ih _ _ rfl hb ?_
          rw [nextOffset, if_neg h0, if_pos h4] at hrest
          exact hrest
        · rw [runRecords, runRecordsClaimed, applyRecord, applyRecordClaimed,
            if_neg h0, if_neg h0, if_neg h1, if_neg h1, if_neg h4, if_neg h4]
          refine ih _ _ ho hb ?_
          rw [nextOffset, if_neg h0, if_neg h4] at hrest
          exact hrest

/-- Under `noStraddleB`, the source run never modifies memory at or
beyond the staging-buffer capacity. -/
theorem runRecords_outside_unchanged (T : List tRecord) :
    ∀ s : AsmState, noStraddleB s.offset T = true →
      ∀ i, 65536 ≤ i → (runRecords s T).buf i = s.buf i := by
  induction T with
  | nil => intro s _ i _; rfl
  | cons r rest ih =>
    intro s hS i hi
    rw [noStraddleB] at hS
    simp only [Bool.and_eq_true, Bool.or_eq_true, Bool.not_eq_eq_eq_not, Bool.not_true,
      beq_iff_eq, beq_eq_false_iff_ne, decide_eq_true_eq] at hS
    by_cases h0 : r.type = 0
    · have hfit : s.offset + (r.data.take r.count).length ≤ 65536 := by
        rcases hS.1 with h | h
        · exact absurd h0 h
        · exact h
      have hrest : noStraddleB (nextOffset s.offset r) rest = true := by
        rcases hS.2 with h | h
        · exact absurd h (by omega)
        · exact h
      rw [runRecords, applyRecord, if_pos h0]
      have step := ih { offset := (s.offset + r.count) % 65536
                        buf := writeBytes s.buf s.offset (r.data.take r.count) }
        (by rw [nextOffset, if_pos h0] at hrest; exact hrest) i hi
      rw [step]
      show writeBytes s.buf s.offset (r.data.take r.count) i = s.buf i
      unfold writeBytes
      rw [if_neg (by omega)]
    · by_cases h1 : r.type = 1
      · rw [runRecords, applyRecord, if_neg h0, if_pos h1]
      · have hrest : noStraddleB (nextOffset s.offset r) rest = true := by
          rcases hS.2 with h | h
          · exact absurd h h1
          · exact h
        by_cases h4 : r.type = 4
        · rw [runRecords, applyRecord, if_neg h0, if_neg h1, if_pos h4]
          exact ih { offset := 0, buf := s.buf }
            (by rw [nextOffset, if_neg h0, if_pos h4] at hrest; exact hrest) i hi
        · rw [runRecords, applyRecord, if_neg h0, if_neg h1, if_neg h4]
          exact ih s (by rw [nextOffset, if_neg h0, if_neg h4] at hrest; exact hrest) i hi

/-- Claim C1 (amended): the assembler never rejects a transfer; the
cursor is wrapped modulo the 65536-byte capacity after each DATA record,
so once the cursor wraps, later records overwrite the start of the
buffer — provided no single DATA record straddles the capacity boundary
(`noStraddleB`).  Under that proviso the source run coincides pointwise
with the spec's wrapped-write semantics and modifies nothing at or
beyond the buffer capacity.  (A straddling record instead writes past
the end of the buffer; see the counterexample.) -/
theorem C1_wrap_modulo_capacity (s : AsmState) (T : List tRecord)
    (hS : noStraddleB s.offset T = true) :
    (runRecords s T).offset = (runRecordsClaimed s T).offset ∧
    (∀ i, (runRecords s T).buf i = (runRecordsClaimed s T).buf i) ∧
    (∀ i, 65536 ≤ i → (runRecords s T).buf i = s.buf i) := by
  have h := runRecords_sim_claimed T s s rfl (fun _ => rfl) hS
  exact ⟨h.1, h.2, runRecords_outside_unchanged T s hS⟩

/-- A DATA record carrying 255 bytes of value 1. -/
def dataRecord255 : tRecord :=
  { count := 255, addr := 0, type := 0, data := List.replicate 255 1 }

/-- A 2-byte DATA record that, arriving at cursor 65535, straddles the
end of the staging buffer. -/
def straddleRecord : tRecord :=
  { count := 2, addr := 0, type := 0, data := [170, 187] }

/-- 257 × 255 = 65535 bytes followed by a 2-byte record: the cumulative
DATA offset exceeds the 65536-byte capacity and the final record
straddles the boundary. -/
def straddleTransfer : List tRecord :=
  List.replicate 257 dataRecord255 ++ [straddleRecord]

/-- Transfer reaching cursor 65535, then one byte `7` (bringing the
cursor exactly to the capacity, which wraps it to 0), then one byte `9`
overwriting the start of the buffer. -/
def boundaryTransfer : List tRecord :=
  List.replicate 257 dataRecord255 ++
    [{ count := 1, addr := 0, type := 0, data := [7] },
     { count := 1, addr := 0, type := 0, data := [9] }]

set_option maxRecDepth 8192

/-- Claim C1 counterexample: on `straddleTransfer` (cumulative DATA
offset 65537 > 65536) the source writes the overflowing byte 187 at raw
index 65536 — outside the staging buffer — and leaves buffer index 0
holding the first record's byte 1, whereas the claimed wrapped semantics
would put 187 at index 0 and touch nothing outside the buffer. -/
theorem C1_straddle_counterexample :
    257 * 255 + 2 > 65536 ∧
    (runRecords initState straddleTransfer).buf 65536 = 187 ∧
    (runRecords initState straddleTransfer).buf 0 = 1 ∧
    (runRecordsClaimed initState straddleTransfer).buf 65536 = 0 ∧
    (runRecordsClaimed initState straddleTransfer).buf 0 = 187 := by
  decide

/-- Witness for C1: `boundaryTransfer` exceeds the capacity with an
exact wrap; the run agrees with the wrapped semantics and its second
post-wrap byte 9 overwrites the start of the buffer. -/
theorem C1_wrap_modulo_capacity_witness :
    noStraddleB initState.offset boundaryTransfer = true ∧
    (runRecords initState boundaryTransfer).buf 0 =
      (runRecordsClaimed initState boundaryTransfer).buf 0 ∧
    (runRecords initState boundaryTransfer).buf 0 = 9 ∧
    (runRecords initState boundaryTransfer).offset = 1 :=
  ⟨by decide, (C1_wrap_modulo_capacity initState boundaryTransfer (by decide)).2.1 0,
    by decide, by decide⟩

/-- Claim C2 (amended): the single contiguous program operation after the
erase writes the 16 header bytes first — the two magic words are its
first 8 bytes — and every image byte only after them.  An interruption
mid-programming can therefore leave valid magic values in front of an
incompletely written image; the claimed ordering (image first, magic
last) is the opposite of what the code does. -/
theorem C2_header_programmed_first (h : tFlashHeader) (image : List Nat) :
    (programSequence h image).take 16 = headerBytes h ∧
    (programSequence h image).drop 16 = image ∧
    (programSequence h image).take 8 = word4 h.magic1 ++ word4 h.magic2 := by
  have hlen : (headerBytes h).length = 16 := by simp [headerBytes, word4]
  refine ⟨List.take_left' hlen, List.drop_left' hlen, ?_⟩
  have h8 : (word4 h.magic1 ++ word4 h.magic2).length = 8 := by simp [word4]
  have hassoc : programSequence h image =
      (word4 h.magic1 ++ word4 h.magic2) ++
        (word4 h.length ++ (word4 h.crc32 ++ image)) := by
    simp [programSequence, headerBytes]
  rw [hassoc, List.take_left' h8]

/-- Claim C2 counterexample: for a staged image of one byte, the program
sequence is 17 bytes long, holds a magic-bearing byte already at
position 0 (before the image byte at position 16), so the claimed
ordering `imageBeforeMagic` fails. -/
theorem C2_magic_last_counterexample :
    ¬ imageBeforeMagic 1 ∧
    (programSequence (flashImage (fun _ => 0) 1)
      ((List.range 1).map (fun _ => (0 : Nat)))).getD 0 0 = FLASH_MAGIC1 % 256 ∧
    (programSequence (flashImage (fun _ => 0) 1)
      ((List.range 1).map (fun _ => (0 : Nat)))).length = 17 := by
  refine ⟨?_, by decide, by decide⟩
  intro hcl
  exact absurd (hcl 16 (by omega) 0 (by omega) (by omega)) (by omega)

/-- Character-level facts about `c |= 32` over the byte range. -/
theorem hexCharFacts : ∀ c < 256,
    (((48 ≤ c ∧ c ≤ 57) ∨ (97 ≤ (c ||| 32) ∧ (c ||| 32) ≤ 122)) ↔
      ((48 ≤ c ∧ c ≤ 57) ∨ (65 ≤ c ∧ c ≤ 90) ∨ (97 ≤ c ∧ c ≤ 122))) ∧
    ((97 ≤ c ∧ c ≤ 122) → c ||| 32 = c) ∧
    ((65 ≤ c ∧ c ≤ 90) → c ||| 32 = c + 32) := by
  decide

/-- Claim C3 (amended): the per-character decoder succeeds exactly when
`c` is a decimal digit or an ASCII letter of either case (not only a
hex digit): digits shift in their value 0-9, and the letters `a`-`f` /
`A`-`F` shift in 10-15 as the claim states, but `g`-`z` / `G`-`Z` are
accepted too (merging values 16-35, see the counterexample).  Record
decoding stops at the first pair whose decoding fails. -/
theorem C3_hex2nibble_succeeds_iff_alphanumeric (c v : Nat) (hc : c < 256) :
    ((hex2nibble c v).isSome ↔
      ((48 ≤ c ∧ c ≤ 57) ∨ (65 ≤ c ∧ c ≤ 90) ∨ (97 ≤ c ∧ c ≤ 122))) ∧
    ((48 ≤ c ∧ c ≤ 57) → hex2nibble c v = some (v * 16 % 256 + (c - 48))) ∧
    ((97 ≤ c ∧ c ≤ 102) → hex2nibble c v = some (v * 16 % 256 + (c - 97 + 10))) ∧
    ((65 ≤ c ∧ c ≤ 70) → hex2nibble c v = some (v * 16 % 256 + (c - 65 + 10))) ∧
    (∀ c1 c2 rest off, parseHex c1 c2 = none → decodeBytes (c1 :: c2 :: rest) off = []) := by
  obtain ⟨hiff, hlow, hupp⟩ := hexCharFacts c hc
  refine ⟨?_, ?_, ?_, ?_, ?_⟩
  · unfold hex2nibble
    split_ifs with h1 h2
    · simp only [Option.isSome_some, true_iff]
      exact Or.inl h1
    · simp only [Option.isSome_some, true_iff]
      exact hiff.mp (Or.inr h2)
    · simp only [Option.isSome_none, Bool.false_eq_true, false_iff]
      intro hcl
      rcases hiff.mpr hcl with hd | hl
      · exact h1 hd
      · exact h2 hl
  · intro h1
    unfold hex2nibble
    rw [if_pos h1, lor_nibble _ _ (by omega)]
  · intro h
    have hc2 : c ||| 32 = c := hlow ⟨h.1, by omega⟩
    unfold hex2nibble
    rw [if_neg (by omega), hc2, if_pos ⟨h.1, by omega⟩, lor_nibble _ _ (by omega)]
  · intro h
    have hc2 : c ||| 32 = c + 32 := hupp ⟨h.1, by omega⟩
    unfold hex2nibble
    rw [if_neg (by omega), hc2, if_pos ⟨by omega, by omega⟩]
    have harith : c + 32 - 97 + 10 = c - 65 + 10 := by omega
    rw [harith, lor_nibble _ _ (by omega)]
  · intro c1 c2 rest off hpar
    simp [decodeBytes, hpar]

/-- Claim C3 counterexample: the letter `g` (103) is not one of
`0`-`9`, `a`-`f`, `A`-`F`, yet the decoder accepts it (as the
out-of-range nibble value 16). -/
theorem C3_letter_g_counterexample :
    hex2nibble 103 0 = some 16 ∧
    ¬((48 ≤ 103 ∧ 103 ≤ 57) ∨ (97 ≤ 103 ∧ 103 ≤ 102) ∨ (65 ≤ 103 ∧ 103 ≤ 70)) := by
  decide

/-- Witness for C3 at `c = 'a' (97)`, `v = 1`: succeeds with value 26. -/
theorem C3_hex2nibble_witness :
    (97 : Nat) < 256 ∧ hex2nibble 97 1 = some 26 :=
  ⟨by decide, by
    have h := (C3_hex2nibble_succeeds_iff_alphanumeric 97 1 (by decide)).2.2.1 (by decide)
    simpa using h⟩

/-- Claim C4 (amended): a well-formed encoded line (ignorable text, the
`':'` marker, hex pairs for count, big-endian address, type, `count`
payload bytes and a trailing checksum byte) is accepted iff the decoded
byte sum vanishes mod 256, and then the returned record carries exactly
the encoded fields with the checksum byte excluded from the payload;
with nonzero sum the line is rejected.  The original claim's further
assertion that any line with invalid hex is rejected is false (see the
counterexample: letters `g`-`z` decode). -/
theorem C4_checksum_decides_acceptance (noise : List Nat) (count addr ty ck : Nat)
    (payload : List Nat) (junk : Nat → Nat)
    (hn : ∀ c ∈ noise, c ≠ 58 ∧ c ≠ 0)
    (hc : count < 256) (ha : addr < 65536) (ht : ty < 256) (hck : ck < 256)
    (hp : ∀ b ∈ payload, b < 256) (hl : payload.length = count) :
    (((count :: addr / 256 :: addr % 256 :: ty :: payload).sum + ck) % 256 = 0 →
      processRecord (noise ++ 58 :: encodeBytes
          ((count :: addr / 256 :: addr % 256 :: ty :: payload) ++ [ck])) junk =
        some { count := count, addr := addr, type := ty, data := payload }) ∧
    (((count :: addr / 256 :: addr % 256 :: ty :: payload).sum + ck) % 256 ≠ 0 →
      processRecord (noise ++ 58 :: encodeBytes
          ((count :: addr / 256 :: addr % 256 :: ty :: payload) ++ [ck])) junk = none) := by
  have hbytes : ∀ b ∈ (count :: addr / 256 :: addr % 256 :: ty :: payload) ++ [ck],
      b < 256 := by
    intro b hb
    simp only [List.mem_append, List.mem_cons, List.not_mem_nil, or_false] at hb
    rcases hb with (rfl | rfl | rfl | rfl | hbp) | rfl
    · exact hc
    · omega
    · omega
    · exact ht
    · exact hp b hbp
    · exact hck
  have hlen : ((count :: addr / 256 :: addr % 256 :: ty :: payload) ++ [ck]).length ≤ 261 := by
    simp [hl]; omega
  have hne : (count :: addr / 256 :: addr % 256 :: ty :: payload) ++ [ck] ≠ [] := by simp
  have hmain := processRecord_encode noise
    ((count :: addr / 256 :: addr % 256 :: ty :: payload) ++ [ck]) junk hn hbytes hlen hne
  have hsum : ((count :: addr / 256 :: addr % 256 :: ty :: payload) ++ [ck]).sum
      = (count :: addr / 256 :: addr % 256 :: ty :: payload).sum + ck := by
    simp only [List.sum_append, List.sum_cons, List.sum_nil]
    omega
  rw [hsum] at hmain
  have hshape : (count :: addr / 256 :: addr % 256 :: ty :: payload) ++ [ck]
      = count :: addr / 256 :: addr % 256 :: ty :: (payload ++ [ck]) := by simp
  constructor
  · intro h0
    rw [hmain, if_pos h0, hshape, extractRecord_body count addr ty ck payload ha hl junk]
  · intro h0
    rw [hmain, if_neg h0]

/-- Claim C4 counterexample: the line `:010000000gEF` contains the
character `g` (103) — invalid hex — in a payload position, yet
`processRecord` accepts it (decoding the pair `0g` as the byte 16). -/
theorem C4_invalid_hex_accepted_counterexample :
    processRecord [58, 48, 49, 48, 48, 48, 48, 48, 48, 48, 103, 69, 70] (fun _ => 0) =
      some { count := 1, addr := 0, type := 0, data := [16] } ∧
    103 ∈ [58, 48, 49, 48, 48, 48, 48, 48, 48, 48, 103, 69, 70] ∧
    ¬((48 ≤ 103 ∧ 103 ≤ 57) ∨ (97 ≤ 103 ∧ 103 ≤ 102) ∨ (65 ≤ 103 ∧ 103 ≤ 70)) := by
  decide

/-- Witness for C4: the line encoding `(1, 0, 0, [5])` with checksum 250
(sum 256 ≡ 0) is accepted with exactly those fields; with checksum 251
it is rejected. -/
theorem C4_checksum_decides_acceptance_witness :
    processRecord (58 :: encodeBytes [1, 0, 0, 0, 5, 250]) (fun _ => 0) =
      some { count := 1, addr := 0, type := 0, data := [5] } ∧
    processRecord (58 :: encodeBytes [1, 0, 0, 0, 5, 251]) (fun _ => 0) = none :=
  ⟨(C4_checksum_decides_acceptance [] 1 0 0 250 [5] (fun _ => 0) (by simp) (by decide)
      (by decide) (by decide) (by decide) (by decide) (by decide)).1 (by decide),
   (C4_checksum_decides_acceptance [] 1 0 0 251 [5] (fun _ => 0) (by simp) (by decide)
      (by decide) (by decide) (by decide) (by decide) (by decide)).2 (by decide)⟩

/-- Claim C9: encoding any `(count, address, type, payload)` tuple with
payload length `count` into the line format with a correct checksum byte
and parsing the line yields exactly the original tuple. -/
theorem C9_encode_parse_roundtrip (count addr ty : Nat) (payload : List Nat)
    (junk : Nat → Nat) (hc : count < 256) (ha : addr < 65536) (ht : ty < 256)
    (hp : ∀ b ∈ payload, b < 256) (hl : payload.length = count) :
    processRecord (encodeRecord count addr ty payload) junk =
      some { count := count, addr := addr, type := ty, data := payload } := by
  show processRecord ([] ++ 58 :: encodeBytes
      ((count :: addr / 256 :: addr % 256 :: ty :: payload) ++
        [checksumByte (count :: addr / 256 :: addr % 256 :: ty :: payload)])) junk = _
  have hbytes : ∀ b ∈ (count :: addr / 256 :: addr % 256 :: ty :: payload) ++
      [checksumByte (count :: addr / 256 :: addr % 256 :: ty :: payload)], b < 256 := by
    intro b hb
    simp only [List.mem_append, List.mem_cons, List.not_mem_nil, or_false] at hb
    rcases hb with (rfl | rfl | rfl | rfl | hbp) | rfl
    · exact hc
    · omega
    · omega
    · exact ht
    · exact hp b hbp
    · unfold checksumByte; omega
  have hlen : ((count :: addr / 256 :: addr % 256 :: ty :: payload) ++
      [checksumByte (count :: addr / 256 :: addr % 256 :: ty :: payload)]).length ≤ 261 := by
    simp [hl]; omega
  have hne : (count :: addr / 256 :: addr % 256 :: ty :: payload) ++
      [checksumByte (count :: addr / 256 :: addr % 256 :: ty :: payload)] ≠ [] := by simp
  have hmain := processRecord_encode []
    ((count :: addr / 256 :: addr % 256 :: ty :: payload) ++
      [checksumByte (count :: addr / 256 :: addr % 256 :: ty :: payload)]) junk
    (by simp) hbytes hlen hne
  have hsum : (((count :: addr / 256 :: addr % 256 :: ty :: payload) ++
      [checksumByte (count :: addr / 256 :: addr % 256 :: ty :: payload)]).sum) % 256 = 0 := by
    simp only [List.sum_append, List.sum_cons, List.sum_nil, checksumByte]
    omega
  have hshape : (count :: addr / 256 :: addr % 256 :: ty :: payload) ++
      [checksumByte (count :: addr / 256 :: addr % 256 :: ty :: payload)]
      = count :: addr / 256 :: addr % 256 :: ty ::
        (payload ++ [checksumByte (count :: addr / 256 :: addr % 256 :: ty :: payload)]) := by
    simp
  rw [hmain, if_pos hsum, hshape,
    extractRecord_body count addr ty _ payload ha hl junk]

/-- Witness for C9 at the tuple `(2, 0x1234, 0, [171, 205])`. -/
theorem C9_encode_parse_roundtrip_witness :
    processRecord (encodeRecord 2 4660 0 [171, 205]) (fun _ => 0) =
      some { count := 2, addr := 4660, type := 0, data := [171, 205] } :=
  C9_encode_parse_roundtrip 2 4660 0 [171, 205] (fun _ => 0) (by decide) (by decide)
    (by decide) (by decide) (by decide)

/-- Claim C10: acceptance needs only one decoded byte with zero running
sum — there is no five-byte minimum — and the three-character line
`:00` is accepted with a record whose address and type come from the
uninitialised stack bytes (`junk`), not from the line. -/
theorem C10_no_minimum_record_length :
    (∀ (line : List Nat) (junk : Nat → Nat), (processRecord line junk).isSome ↔
      ∃ rest, dropToColon line = some rest ∧
        0 < (decodeBytes rest 0).length ∧ (decodeBytes rest 0).sum % 256 = 0) ∧
    (∀ junk : Nat → Nat, processRecord [58, 48, 48] junk =
      some { count := 0, addr := junk 1 % 256 * 256 + junk 2 % 256,
             type := junk 3 % 256, data := [] }) := by
  constructor
  · intro line junk
    unfold processRecord
    cases h : dropToColon line with
    | none => simp
    | some rest =>
      by_cases hcond : 0 < (decodeBytes rest 0).length ∧ (decodeBytes rest 0).sum % 256 = 0
      · simp only [if_pos hcond, Option.isSome_some, true_iff]
        exact ⟨rest, rfl, hcond⟩
      · simp only [if_neg hcond, Option.isSome_none, Bool.false_eq_true, false_iff]
        rintro ⟨r, hr, h1, h2⟩
        have hrr : rest = r := by injection hr
        subst hrr
        exact hcond ⟨h1, h2⟩
  · intro junk
    have h1 : processRecord [58, 48, 48] junk = some (extractRecord [0] junk) := rfl
    have haddr : (junk 2 % 256 ||| junk 1 % 256 * 256) % 65536
        = junk 1 % 256 * 256 + junk 2 % 256 := by
      rw [lor_mul256 _ _ (by omega)]
      omega
    rw [h1]
    unfold extractRecord readData
    simp only [List.length_singleton, List.getD_cons_zero]
    norm_num
    rw [haddr]

/-- Claim C7: a line the parser rejects leaves the pipeline state
(cursor and staging buffer) untouched; in particular, a well-formed line
whose checksum byte is altered by +1 (mod 256) is rejected and preserves
the state. -/
theorem C7_rejected_line_preserves_state :
    (∀ (s : AsmState) (line : List Nat) (junk : Nat → Nat),
      processRecord line junk = none → stepLine s line junk = Sum.inl s) ∧
    (∀ (s : AsmState) (noise : List Nat) (count addr ty : Nat) (payload : List Nat)
        (junk : Nat → Nat),
      (∀ c ∈ noise, c ≠ 58 ∧ c ≠ 0) → count < 256 → addr < 65536 → ty < 256 →
      (∀ b ∈ payload, b < 256) → payload.length = count →
      processRecord (noise ++ 58 :: encodeBytes
          ((count :: addr / 256 :: addr % 256 :: ty :: payload) ++
            [(checksumByte (count :: addr / 256 :: addr % 256 :: ty :: payload) + 1) % 256]))
        junk = none ∧
      stepLine s (noise ++ 58 :: encodeBytes
          ((count :: addr / 256 :: addr % 256 :: ty :: payload) ++
            [(checksumByte (count :: addr / 256 :: addr % 256 :: ty :: payload) + 1) % 256]))
        junk = Sum.inl s) := by
  have hgen : ∀ (s : AsmState) (line : List Nat) (junk : Nat → Nat),
      processRecord line junk = none → stepLine s line junk = Sum.inl s := by
    intro s line junk h
    unfold stepLine
    rw [h]
  refine ⟨hgen, ?_⟩
  intro s noise count addr ty payload junk hn hc ha ht hp hl
  have hbytes : ∀ b ∈ (count :: addr / 256 :: addr % 256 :: ty :: payload) ++
      [(checksumByte (count :: addr / 256 :: addr % 256 :: ty :: payload) + 1) % 256],
      b < 256 := by
    intro b hb
    simp only [List.mem_append, List.mem_cons, List.not_mem_nil, or_false] at hb
    rcases hb with (rfl | rfl | rfl | rfl | hbp) | rfl
    · exact hc
    · omega
    · omega
    · exact ht
    · exact hp b hbp
    · omega
  have hlen : ((count :: addr / 256 :: addr % 256 :: ty :: payload) ++
      [(checksumByte (count :: addr / 256 :: addr % 256 :: ty :: payload) + 1) % 256]).length
      ≤ 261 := by
    simp [hl]; omega
  have hne : (count :: addr / 256 :: addr % 256 :: ty :: payload) ++
      [(checksumByte (count :: addr / 256 :: addr % 256 :: ty :: payload) + 1) % 256] ≠ [] := by
    simp
  have hmain := processRecord_encode noise
    ((count :: addr / 256 :: addr % 256 :: ty :: payload) ++
      [(checksumByte (count :: addr / 256 :: addr % 256 :: ty :: payload) + 1) % 256]) junk
    hn hbytes hlen hne
  have hsum : (((count :: addr / 256 :: addr % 256 :: ty :: payload) ++
      [(checksumByte (count :: addr / 256 :: addr % 256 :: ty :: payload) + 1) % 256]).sum)
      % 256 ≠ 0 := by
    simp only [List.sum_append, List.sum_cons, List.sum_nil, checksumByte]
    omega
  have hrej : processRecord (noise ++ 58 :: encodeBytes
      ((count :: addr / 256 :: addr % 256 :: ty :: payload) ++
        [(checksumByte (count :: addr / 256 :: addr % 256 :: ty :: payload) + 1) % 256]))
      junk = none := by
    rw [hmain, if_neg hsum]
  exact ⟨hrej, hgen s _ junk hrej⟩

/-- Witness for C7: the end-of-file line with checksum altered from `FF`
to `00` is rejected and the pipeline state is unchanged. -/
theorem C7_rejected_line_preserves_state_witness :
    processRecord (58 :: encodeBytes ([0, 0, 0, 1] ++ [(checksumByte [0, 0, 0, 1] + 1) % 256]))
      (fun _ => 0) = none ∧
    stepLine initState
      (58 :: encodeBytes ([0, 0, 0, 1] ++ [(checksumByte [0, 0, 0, 1] + 1) % 256]))
      (fun _ => 0) = Sum.inl initState :=
  C7_rejected_line_preserves_state.2 initState [] 0 0 1 [] (fun _ => 0)
    (by simp) (by decide) (by decide) (by decide) (by simp) rfl

/-- Claim C5: an accepted END-OF-FILE record at cursor `n` invokes the
stager with length exactly `n`, and the populated header carries both
magic constants, length `n`, and the CRC32 (seed `0xFFFFFFFF`) of the
first `n` staging-buffer bytes. -/
theorem C5_eof_triggers_staging (s : AsmState) (line : List Nat) (junk : Nat → Nat)
    (r : tRecord) (hso : s.offset < 2 ^ 32)
    (hr : processRecord line junk = some r) (ht : r.type = 1) :
    stepLine s line junk = Sum.inr
      { header := flashImage s.buf s.offset
        length := s.offset
        image := (List.range s.offset).map s.buf } ∧
    (flashImage s.buf s.offset).magic1 = FLASH_MAGIC1 ∧
    (flashImage s.buf s.offset).magic2 = FLASH_MAGIC2 ∧
    (flashImage s.buf s.offset).length = s.offset ∧
    (flashImage s.buf s.offset).crc32 =
      crc32 ((List.range s.offset).map s.buf) 0xFFFFFFFF := by
  refine ⟨?_, rfl, rfl, ?_, rfl⟩
  · simp only [stepLine, hr]
    unfold applyRecord
    rw [if_neg (show ¬ r.type = 0 by omega), if_pos ht]
  · show s.offset % 2 ^ 32 = s.offset
    exact Nat.mod_eq_of_lt hso

/-- Witness for C5: the line `:00000001FF` parses as an EOF record and
stages the (empty) image at cursor 0. -/
theorem C5_eof_triggers_staging_witness :
    stepLine initState [58, 48, 48, 48, 48, 48, 48, 48, 49, 70, 70] (fun _ => 0) =
      Sum.inr { header := flashImage initState.buf initState.offset
                length := initState.offset
                image := (List.range initState.offset).map initState.buf } ∧
    (flashImage initState.buf initState.offset).length = initState.offset :=
  ⟨(C5_eof_triggers_staging initState [58, 48, 48, 48, 48, 48, 48, 48, 49, 70, 70]
      (fun _ => 0) { count := 0, addr := 0, type := 1, data := [] }
      (by decide) (by decide) rfl).1,
   (C5_eof_triggers_staging initState [58, 48, 48, 48, 48, 48, 48, 48, 49, 70, 70]
      (fun _ => 0) { count := 0, addr := 0, type := 1, data := [] }
      (by decide) (by decide) rfl).2.2.2.1⟩

/-- Claim C8: the assembler's transition on an accepted record: a DATA
record copies its `count` payload bytes to consecutive indices starting
at the cursor and advances the cursor by `count` wrapped modulo the
65536-byte capacity; an EXTENDED-LINEAR-ADDRESS record (type 4) resets
the cursor to 0 and leaves the buffer untouched; EXTENDED-SEGMENT (2),
START-SEGMENT (3), START-LINEAR (5) and unrecognized types change
nothing. -/
theorem C8_assembler_transition_table (s : AsmState) (r : tRecord) :
    (r.type = 0 → r.data.length = r.count →
      ∃ s', applyRecord s r = Sum.inl s' ∧
        s'.offset = (s.offset + r.count) % 65536 ∧
        (∀ i < r.count, s'.buf (s.offset + i) = r.data.getD i 0) ∧
        (∀ j, j < s.offset ∨ s.offset + r.count ≤ j → s'.buf j = s.buf j)) ∧
    (r.type = 4 → applyRecord s r = Sum.inl { offset := 0, buf := s.buf }) ∧
    (r.type = 2 ∨ r.type = 3 ∨ r.type = 5 → applyRecord s r = Sum.inl s) ∧
    (r.type ≠ 0 → r.type ≠ 1 → r.type ≠ 4 → applyRecord s r = Sum.inl s) := by
  refine ⟨?_, ?_, ?_, ?_⟩
  · intro h0 hlen
    have htake : r.data.take r.count = r.data := by
      rw [← hlen, List.take_length]
    refine ⟨{ offset := (s.offset + r.count) % 65536
              buf := writeBytes s.buf s.offset (r.data.take r.count) },
      by unfold applyRecord; rw [if_pos h0], rfl, ?_, ?_⟩
    · intro i hi
      show writeBytes s.buf s.offset (r.data.take r.count) (s.offset + i) = r.data.getD i 0
      unfold writeBytes
      rw [htake, if_pos ⟨by omega, by omega⟩]
      have hidx : s.offset + i - s.offset = i := by omega
      rw [hidx]
    · intro j hj
      show writeBytes s.buf s.offset (r.data.take r.count) j = s.buf j
      unfold writeBytes
      rw [htake]
      rcases hj with hj | hj
      · rw [if_neg (by omega)]
      · rw [if_neg (by omega)]
  · intro h4
    unfold applyRecord
    rw [if_neg (by omega), if_neg (by omega), if_pos h4]
  · rintro (h | h | h) <;>
      (unfold applyRecord; rw [if_neg (by omega), if_neg (by omega), if_neg (by omega)])
  · intro h0 h1 h4
    unfold applyRecord
    rw [if_neg h0, if_neg h1, if_neg h4]

/-- Witness for C8: a 2-byte DATA record at the initial state places its
bytes at indices 0 and 1 and advances the cursor to 2. -/
theorem C8_assembler_transition_table_witness :
    ∃ s', applyRecord initState { count := 2, addr := 0, type := 0, data := [7, 9] } =
        Sum.inl s' ∧
      s'.offset = (initState.offset + 2) % 65536 ∧
      (∀ i < 2, s'.buf (initState.offset + i) = [7, 9].getD i 0) ∧
      (∀ j, j < initState.offset ∨ initState.offset + 2 ≤ j →
        s'.buf j = initState.buf j) :=
  (C8_assembler_transition_table initState
    { count := 2, addr := 0, type := 0, data := [7, 9] }).1 rfl rfl
